import Mathlib

/-!
Verification development for the beam-sync state backfill engine
(`trinity/sync/beam/backfill.py`) and the sync launch strategies
(`trinity/sync/common/strategies.py`).

The Python source is shallowly embedded: byte strings become `List Nat`,
Python sets become `Finset`, the mutable engine object becomes an explicit
`BackfillState` record, exceptions become `Except`/`Option` results, and
the cooperative-multitasking event handlers become an explicit step
relation on states.
-/

deriving instance DecidableEq for Except

namespace Trinity

/-- Raw byte strings (each entry is one byte value). -/
abbrev Bytes := List Nat

/-- A 32-byte content identifier of a trie node (`Hash32`); modelled as a
byte list like every other byte string. -/
abbrev Hash := List Nat

/-- Opaque peer handles (`ETHPeer`); equality and hashing are stable. -/
abbrev Peer := Nat

/-- A Python object as it can appear in the result of `rlp.decode` and in
the expressions of `_get_children`: a (byte-)integer, a byte string, or a
list.  Indexing a byte string yields an integer, which is how the dynamic
typing of the source matters below. -/
inductive PyObj where
  | int : Nat → PyObj
  | bytes : Bytes → PyObj
  | list : List PyObj → PyObj

/-- Big-endian interpretation of a byte string, as used for the length
field of long RLP items. -/
def beInt (bs : Bytes) : Nat := bs.foldl (fun a b => a * 256 + b) 0

mutual

/-- One step of the canonical RLP decoder used by `rlp.decode`
(`consume_item` in the `rlp` package): decode one item from the front of
the input, returning the item and the remaining bytes.  `none` is a
`DecodingError`.  `fuel` bounds the nesting depth; `rlpDecode` supplies
more fuel than any input can consume. -/
def consumeItem : Nat → List Nat → Option (PyObj × List Nat)
  | 0, _ => none
  | _, [] => none
  | fuel + 1, b0 :: rest =>
    if b0 < 128 then
      some (.bytes [b0], rest)
    else if b0 < 184 then
      let l := b0 - 128
      if l = 1 then
        match rest with
        | [] => none
        | b1 :: rest2 =>
          if b1 < 128 then none else some (.bytes [b1], rest2)
      else if l ≤ rest.length then
        some (.bytes (rest.take l), rest.drop l)
      else none
    else if b0 < 192 then
      let ll := b0 - 183
      if ll ≤ rest.length then
        let lenBytes := rest.take ll
        if lenBytes.head? = some 0 then none
        else
          let l := beInt lenBytes
          if l < 56 then none
          else if l ≤ (rest.drop ll).length then
            some (.bytes ((rest.drop ll).take l), (rest.drop ll).drop l)
          else none
      else none
    else if b0 < 248 then
      let l := b0 - 192
      if l ≤ rest.length then
        match consumeListItems fuel (rest.take l) with
        | none => none
        | some items => some (.list items, rest.drop l)
      else none
    else
      let ll := b0 - 247
      if ll ≤ rest.length then
        let lenBytes := rest.take ll
        if lenBytes.head? = some 0 then none
        else
          let l := beInt lenBytes
          if l < 56 then none
          else if l ≤ (rest.drop ll).length then
            match consumeListItems fuel ((rest.drop ll).take l) with
            | none => none
            | some items => some (.list items, (rest.drop ll).drop l)
          else none
      else none

/-- Decode a full list payload into its items; the payload must be
consumed exactly (`consume_list` semantics of the `rlp` package). -/
def consumeListItems : Nat → List Nat → Option (List PyObj)
  | 0, _ => none
  | _, [] => some []
  | fuel + 1, input =>
    match consumeItem fuel input with
    | none => none
    | some (v, rest) =>
      match consumeListItems fuel rest with
      | none => none
      | some items => some (v :: items)

end

/-- Model of `rlp.decode(encoded)`: `none` is an `rlp.DecodingError`
(including trailing superfluous bytes), `some v` is the decoded object,
which is always a byte string or a (nested) list. -/
def rlpDecode (input : Bytes) : Option PyObj :=
  match consumeItem (2 * input.length + 2) input with
  | some (v, []) => some v
  | _ => none

/-- Model of `set(node_hash for node_hash in elems if len(node_hash) == 32)`
over the first sixteen slots of a decoded branch node.  Per Python
semantics, `len` of an integer raises `TypeError`, and adding a list to a
set raises `TypeError` (unhashable); both are modelled as `.error`. -/
def buildSet : List PyObj → Except Unit (List Bytes)
  | [] => .ok []
  | e :: rest =>
    match e with
    | .int _ => .error ()
    | .bytes s =>
      if s.length = 32 then
        match buildSet rest with
        | .error err => .error err
        | .ok cs => .ok (if s ∈ cs then cs else s :: cs)
      else buildSet rest
    | .list l => if l.length = 32 then .error () else buildSet rest

/-- Model of `BeamStateBackfill._get_children(encoded_node)`.  An
`rlp.DecodingError` is caught and yields the empty set; any other raised
error (the `TypeError`s arising when the decoded object is a byte string
of length 17 or 2, or when a 32-element sublist sits in a hash slot)
propagates to the caller as `.error`. -/
def get_children (encoded : Bytes) : Except Unit (List Bytes) :=
  match rlpDecode encoded with
  | none => .ok []
  | some (.int _) => .error ()
  | some (.bytes s) =>
    if s.length = 17 then .error ()
    else if s.length = 2 then .error ()
    else .ok []
  | some (.list items) =>
    if items.length = 17 then
      buildSet (items.take 16)
    else if items.length = 2 then
      match items.get? 1 with
      | some (.int _) => .error ()
      | some (.bytes s) => if s.length = 32 then .ok [s] else .ok []
      | some (.list l) => if l.length = 32 then .error () else .ok []
      | none => .ok []
    else .ok []

/-- The child hashes `_get_children` yields, empty when it raises; used by
the walker model to state the rank hypothesis. -/
def childrenList (enc : Bytes) : List Bytes :=
  match get_children enc with
  | .ok cs => cs
  | .error _ => []

/-- Constant `REQUEST_SIZE` from `backfill.py`. -/
def REQUEST_SIZE : Nat := 16

/-- The mutable state of a `BeamStateBackfill` engine instance, together
with the pool-rotation bookkeeping of the surrounding event loop:
`waiting` is the `WaitingPeers` heap (set semantics per its interface:
a peer appears at most once) and `out` holds the peers that are neither
waiting nor enthroned — peers with an in-flight background request or a
scheduled `call_later` re-insertion callback. -/
structure BackfillState where
  node_hashes : List Hash
  is_missing : Finset Hash
  queen : Option Peer
  waiting : Finset Peer
  out : Finset Peer
  num_added : Nat
  num_missed : Nat
  total_processed : Nat
  requests_log : List Peer
deriving DecidableEq

/-- The state of a freshly constructed engine. -/
def emptyBackfill : BackfillState :=
  { node_hashes := []
    is_missing := ∅
    queen := none
    waiting := ∅
    out := ∅
    num_added := 0
    num_missed := 0
    total_processed := 0
    requests_log := [] }

/-- Model of `_has_full_request_worth_of_queued_hashes`, exactly as the
source writes it: note the `not in self._is_missing` test on line 237. -/
def has_full_request_worth_of_queued_hashes (s : BackfillState) : Bool :=
  if s.node_hashes.length < REQUEST_SIZE then false
  else
    let preview := s.node_hashes.drop (s.node_hashes.length - REQUEST_SIZE)
    preview.all fun h => !(decide (h ∈ s.is_missing))

/-- The predicate the in-code comment and the spec describe: at least
`REQUEST_SIZE` queued hashes and every one of the last `REQUEST_SIZE`
confirmed missing (member of the `MissingSet`). -/
def tail_confirmed_missing (s : BackfillState) : Bool :=
  if s.node_hashes.length < REQUEST_SIZE then false
  else
    let preview := s.node_hashes.drop (s.node_hashes.length - REQUEST_SIZE)
    preview.all fun h => decide (h ∈ s.is_missing)

/-- Model of `set_root_hash`. -/
def set_root_hash (s : BackfillState) (root : Hash) : BackfillState :=
  if s.node_hashes.length < REQUEST_SIZE then
    { s with node_hashes := s.node_hashes ++ [root] }
  else s

/-- Model of `_update_queen(peer)`; `key` is `_peer_sort_key` read at call
time (negated items/second, lower is faster). -/
def update_queen (key : Peer → Int) (s : BackfillState) (p : Peer) : BackfillState :=
  match s.queen with
  | none => { s with queen := some p }
  | some q =>
    if p = q then s
    else if key p < key q then
      { s with waiting := insert q s.waiting, queen := some p }
    else s

/-- Model of `penalize_queen(peer)`: clearing the slot moves the peer to
`out` (a delayed `put_nowait` is scheduled). -/
def penalize_queen (s : BackfillState) (p : Peer) : BackfillState :=
  if s.queen = some p then { s with queen := none, out := insert p s.out }
  else s

/-- What one iteration of the `_run_backfill` loop did with the peer it
popped from the heap. -/
inductive RoundAction where
  | dropped
  | becameQueen
  | skippedBusy
  | idle
  | requested (p : Peer) (onDeck : List Hash)
deriving DecidableEq

/-- Model of one iteration of `_run_backfill` after `_walk()` has
finished, acting on the peer `p` just popped by `get_fastest()`.
`operational` and `isRequesting` are the peer's `is_operational` and
`requests.get_node_data.is_requesting` flags.  Slicing with negative
indices follows Python: for fewer than `REQUEST_SIZE` hashes the whole
stack goes on deck. -/
def backfillRound (key : Peer → Int) (s : BackfillState) (p : Peer)
    (operational isRequesting : Bool) : BackfillState × RoundAction :=
  let s1 : BackfillState := { s with waiting := s.waiting.erase p }
  if operational = false then
    ({ s1 with queen := if s1.queen = some p then none else s1.queen }, .dropped)
  else
    let s2 := update_queen key s1 p
    if s2.queen = some p then (s2, .becameQueen)
    else if isRequesting then ({ s2 with out := insert p s2.out }, .skippedBusy)
    else
      let onDeck := s2.node_hashes.drop (s2.node_hashes.length - REQUEST_SIZE)
      let s3 : BackfillState :=
        { s2 with node_hashes := s2.node_hashes.take (s2.node_hashes.length - REQUEST_SIZE) }
      if onDeck.isEmpty then
        ({ s3 with waiting := insert p s3.waiting }, .idle)
      else
        ({ s3 with out := insert p s3.out }, .requested p onDeck)

/-- How a `get_node_data` request can end, mirroring the exception
classification in `_make_request`: `success` carries the `(hash, bytes)`
pairs the peer returned. -/
inductive RequestOutcome where
  | timeout
  | peerGone
  | otherError
  | success (nodes : List (Hash × Bytes))
deriving DecidableEq

/-- Model of the loop body of `_insert_results`: walk the requested
hashes, and for each one found in the response write it to the batch,
bump the counters, drop it from the missing-set cache and push its
children; otherwise count a miss and re-enqueue it.  A `TypeError`
escaping `_get_children` aborts the iteration (the mutations already made
to the engine state stand, the batch is discarded by `atomic_batch`); the
returned flag records whether the loop completed. -/
def insertLoop (dict : Hash → Option Bytes) :
    List Hash → BackfillState → List (Hash × Bytes) →
    BackfillState × List (Hash × Bytes) × Bool
  | [], s, batch => (s, batch, true)
  | h :: rest, s, batch =>
    match dict h with
    | some enc =>
      let s1 : BackfillState :=
        { s with
          num_added := s.num_added + 1
          total_processed := s.total_processed + 1
          is_missing := s.is_missing.erase h }
      match get_children enc with
      | .error _ => (s1, batch ++ [(h, enc)], false)
      | .ok children =>
        insertLoop dict rest
          { s1 with node_hashes := s1.node_hashes ++ children }
          (batch ++ [(h, enc)])
    | none =>
      insertLoop dict rest
        { s with
          num_missed := s.num_missed + 1
          node_hashes := s.node_hashes ++ [h] }
        batch

/-- The net effect of one `_make_request` task: the engine state when the
task finishes, the writes committed to the store (empty unless the
response was fully processed, since `atomic_batch` discards the batch on
an escaping error), the delay after which the peer is re-inserted into
the waiting heap (`none` when no `call_later` is scheduled), and whether
an exception escaped the task. -/
structure ReqResult where
  state : BackfillState
  db_writes : List (Hash × Bytes)
  reinsertDelay : Option Nat
  raised : Bool
deriving DecidableEq

/-- Model of `_make_request(peer, request_hashes)` resolved with outcome
`o`; `gap` is `GAP_BETWEEN_TESTS`.  The response dict is last-wins, as
`dict(nodes)` is. -/
def make_request (gap : Nat) (s : BackfillState) (p : Peer)
    (request_hashes : List Hash) (o : RequestOutcome) : ReqResult :=
  let s0 : BackfillState := { s with requests_log := s.requests_log ++ [p] }
  match o with
  | .timeout =>
    { state := { s0 with node_hashes := s0.node_hashes ++ request_hashes }
      db_writes := []
      reinsertDelay := some (gap * 2)
      raised := false }
  | .peerGone =>
    { state := { s0 with node_hashes := s0.node_hashes ++ request_hashes }
      db_writes := []
      reinsertDelay := none
      raised := false }
  | .otherError =>
    { state := { s0 with node_hashes := s0.node_hashes ++ request_hashes }
      db_writes := []
      reinsertDelay := some (gap * 2)
      raised := false }
  | .success nodes =>
    let dict := fun h => List.lookup h nodes.reverse
    let r := insertLoop dict request_hashes s0 []
    { state := r.1
      db_writes := if r.2.2 then r.2.1 else []
      reinsertDelay := some gap
      raised := !r.2.2 }

/-- The local store: a finite association of hashes to node bytes. -/
abbrev Db := List (Hash × Bytes)

/-- Model of the scan of `reversed(self._node_hashes)` inside `_walk`
(lines 245-259): entries already cached as missing are skipped, store
misses are added to the cache on the spot, and the first store hit stops
the scan with its reversed index and bytes. -/
def scanLoop (db : Db) :
    List Hash → Finset Hash → Nat → Finset Hash × Option (Nat × Bytes)
  | [], missing, _ => (missing, none)
  | h :: rest, missing, ridx =>
    if h ∈ missing then scanLoop db rest missing (ridx + 1)
    else
      match List.lookup h db with
      | none => scanLoop db rest (insert h missing) (ridx + 1)
      | some enc => (missing, some (ridx, enc))

/-- Result of one iteration of the `while` loop of `_walk`: either the
call terminates (loop condition satisfied, scan found nothing to expand,
or a `TypeError` escaped `_get_children`) with the given state, or the
loop continues with the given state. -/
inductive WalkStepRes where
  | finished (s : BackfillState)
  | again (s : BackfillState)
deriving DecidableEq

/-- One iteration of the `while` loop of `_walk`. -/
def walkStep (db : Db) (s : BackfillState) : WalkStepRes :=
  if has_full_request_worth_of_queued_hashes s then .finished s
  else
    match scanLoop db s.node_hashes.reverse s.is_missing 0 with
    | (missing1, none) => .finished { s with is_missing := missing1 }
    | (missing1, some (ridx, enc)) =>
      let removeIdx := s.node_hashes.length - ridx - 1
      let s1 : BackfillState :=
        { s with
          is_missing := missing1
          node_hashes := s.node_hashes.eraseIdx removeIdx }
      match get_children enc with
      | .error _ => .finished s1
      | .ok children => .again { s1 with node_hashes := s1.node_hashes ++ children }

/-- Run the `_walk` loop for at most `fuel` iterations; `none` means the
loop was still running when the fuel ran out. -/
def walkRun (db : Db) : Nat → BackfillState → Option BackfillState
  | 0, _ => none
  | fuel + 1, s =>
    match walkStep db s with
    | .finished s1 => some s1
    | .again s1 => walkRun db fuel s1

/-- Proposition that `_walk` terminates on this store and state: some finite number of
loop iterations reaches a return. -/
def walkTerminates (db : Db) (s : BackfillState) : Prop :=
  ∃ fuel, (walkRun db fuel s).isSome = true

/-- The queen-exclusivity invariant together with the disjointness of the
waiting heap and the out-of-rotation set that makes it inductive. -/
def PoolInv (s : BackfillState) : Prop :=
  (∀ q, s.queen = some q → q ∉ s.waiting ∧ q ∉ s.out) ∧
  ∀ p, p ∈ s.waiting → p ∉ s.out

/-- The state transitions of the engine's event loop that touch the queen
slot, the waiting heap, or the out-of-rotation set.  Each constructor
carries the state-change equation so concrete traces can be produced. -/
inductive Step (key : Peer → Int) : BackfillState → BackfillState → Prop where
  | roundStep (s s' : BackfillState) (p : Peer) (op req : Bool) (a : RoundAction)
      (hp : p ∈ s.waiting) (h : backfillRound key s p op req = (s', a)) :
      Step key s s'
  | finishRequest (s s' : BackfillState) (gap : Nat) (p : Peer)
      (hashes : List Hash) (o : RequestOutcome) (hp : p ∈ s.out)
      (h : s' = { (make_request gap s p hashes o).state with
                  out := if (make_request gap s p hashes o).reinsertDelay.isSome
                         then s.out else s.out.erase p }) :
      Step key s s'
  | fireReinsert (s s' : BackfillState) (p : Peer) (hp : p ∈ s.out)
      (h : s' = { s with out := s.out.erase p, waiting := insert p s.waiting }) :
      Step key s s'
  | penalizeStep (s s' : BackfillState) (p : Peer)
      (h : s' = penalize_queen s p) : Step key s s'
  | registerStep (s s' : BackfillState) (p : Peer)
      (hfresh : p ∉ s.waiting ∧ p ∉ s.out ∧ s.queen ≠ some p)
      (h : s' = { s with waiting := insert p s.waiting }) : Step key s s'
  | deregisterStep (s s' : BackfillState) (p : Peer)
      (h : s' = { s with queen := if s.queen = some p then none else s.queen }) :
      Step key s s'
  | getQueenStep (s s' : BackfillState) (p : Peer) (hp : p ∈ s.waiting)
      (h : s' = update_queen key { s with waiting := s.waiting.erase p } p) :
      Step key s s'
  | setRootStep (s s' : BackfillState) (root : Hash)
      (h : s' = set_root_hash s root) : Step key s s'
  | walkIterStep (s s' : BackfillState) (db : Db)
      (h : walkStep db s = .again s' ∨ walkStep db s = .finished s') :
      Step key s s'

/-- The engine states reachable from a fresh engine through the event
loop's transitions. -/
inductive Reachable (key : Peer → Int) : BackfillState → Prop where
  | init : Reachable key emptyBackfill
  | step {s s' : BackfillState} :
      Reachable key s → Step key s s' → Reachable key s'

/-- How one attempt of
`FromCheckpointLaunchStrategy.fulfill_prerequisites` can end: each
constructor is one `continue` path of the loop body (no connected peers,
a non-response or validation error, the peer connection lost, an empty
header response, a single header right at the chain tip, a header batch
that is `waitSeconds` of block time short of the needed distance), or
success with the checkpoint header's block number. -/
inductive AttemptResult where
  | noPeers
  | nonResponse
  | peerLost
  | noHeaders
  | atTip
  | shortage (waitSeconds : ℚ)
  | success (headerNumber : Int)

/-- Constant `MAXIMUM_RETRY_SLEEP` from `strategies.py`. -/
def MAXIMUM_RETRY_SLEEP : ℚ := 30

/-- The sleep executed before the next attempt for each loop path of
`fulfill_prerequisites` (`none` when the attempt returns): 2 s with no
peers, the yielding `sleep(0)` after a non-response, no sleep after a
lost connection, the trailing `sleep(0.05)` after an empty response,
10 s at the tip, and `min(waitSeconds, MAXIMUM_RETRY_SLEEP)` for a
shortage. -/
def attemptSleep : AttemptResult → Option ℚ
  | .noPeers => some 2
  | .nonResponse => some 0
  | .peerLost => some 0
  | .noHeaders => some (1 / 20)
  | .atTip => some 10
  | .shortage w => some (min w MAXIMUM_RETRY_SLEEP)
  | .success _ => none

/-- The retry loop of `fulfill_prerequisites`: run attempts `i`,
`i + 1`, … while `attemptsLeft` lasts; the first success returns the
checkpoint header's block number (which the method stores into
`min_block_number` before persisting the header), otherwise the loop ends
and an `asyncio.TimeoutError` is raised (`.error`). -/
def fulfillFrom (outcomes : Nat → AttemptResult) :
    Nat → Nat → Except Unit Int
  | 0, _ => .error ()
  | attemptsLeft + 1, i =>
    match outcomes i with
    | .success num => .ok num
    | _ => fulfillFrom outcomes attemptsLeft (i + 1)

/-- Model of `fulfill_prerequisites`, with `max_attempts = 1000`. -/
def fulfill_prerequisites (outcomes : Nat → AttemptResult) : Except Unit Int :=
  fulfillFrom outcomes 1000 0

/-- Constant `GENESIS_BLOCK_NUMBER` from the `eth` library. -/
def GENESIS_BLOCK_NUMBER : Int := 0

/-- Model of `FromGenesisLaunchStrategy.get_starting_block_number`:
`reorgDepth` is `MAX_SKELETON_REORG_DEPTH`, `headBlockNumber` the
canonical head's number. -/
def genesis_get_starting_block_number (headBlockNumber reorgDepth : Int) : Int :=
  max GENESIS_BLOCK_NUMBER (headBlockNumber - reorgDepth)

/-- Model of `FromCheckpointLaunchStrategy.get_starting_block_number`:
`genesisResult` is what the wrapped genesis strategy returned. -/
def checkpoint_get_starting_block_number (min_block_number genesisResult : Int) : Int :=
  if genesisResult > min_block_number then genesisResult else min_block_number

/-! ## Claim C1 -/

/-- Sixteen distinct hashes. -/
def c1Hashes : List Hash := (List.range 16).map fun i => [i]

/-- An engine state whose sixteen queued hashes are all cached as
missing. -/
def c1State : BackfillState :=
  { emptyBackfill with node_hashes := c1Hashes, is_missing := c1Hashes.toFinset }

/-- C1: evaluation of `_has_full_request_worth_of_queued_hashes` at a
state whose sixteen queued hashes are all confirmed missing.  The claim
(and the comment inside the function) says the predicate must be true
there, but the source tests `node_hash not in self._is_missing` and
returns false; symmetrically it returns true when none of the tail hashes
has been confirmed missing. -/
theorem c1_walk_predicate_inverted :
    c1State.node_hashes.length = REQUEST_SIZE ∧
    tail_confirmed_missing c1State = true ∧
    has_full_request_worth_of_queued_hashes c1State = false ∧
    has_full_request_worth_of_queued_hashes { c1State with is_missing := ∅ } = true := by
  decide

/-! ## Claim C8 -/

/-- C8: `set_root_hash` appends the root when fewer than `REQUEST_SIZE`
hashes are queued, leaving every other field unchanged, and is a complete
no-op when `REQUEST_SIZE` or more are queued. -/
theorem c8_set_root_hash_spec (s : BackfillState) (root : Hash) :
    (s.node_hashes.length < REQUEST_SIZE →
      set_root_hash s root = { s with node_hashes := s.node_hashes ++ [root] }) ∧
    (REQUEST_SIZE ≤ s.node_hashes.length → set_root_hash s root = s) := by
  constructor
  · intro h
    simp [set_root_hash, h]
  · intro h
    simp [set_root_hash, Nat.not_lt.mpr h]

/-- Witness for C8 at a freshly constructed engine. -/
theorem c8_set_root_hash_witness :
    set_root_hash emptyBackfill [5] =
      { emptyBackfill with node_hashes := emptyBackfill.node_hashes ++ [[5]] } :=
  (c8_set_root_hash_spec emptyBackfill [5]).1 (by decide)

/-! ## Claim C3 -/

/-- A decoded slot that `_get_children` can examine without raising: an
integer makes `len()` raise, and a 32-element sublist is accepted by the
length filter and then makes the set constructor raise (unhashable). -/
def slotSafe : PyObj → Bool
  | .int _ => false
  | .bytes _ => true
  | .list l => decide (l.length ≠ 32)

/-- Decoded objects on which `_get_children` completes without raising:
byte strings of length 17 or 2 are excluded, and in the two list shapes
the examined slots must be safe. -/
def childSafeShape : PyObj → Bool
  | .int _ => false
  | .bytes s => decide (s.length ≠ 17) && decide (s.length ≠ 2)
  | .list items =>
    (if items.length = 17 then (items.take 16).all slotSafe else true) &&
    (if items.length = 2 then ((items.get? 1).map slotSafe).getD true else true)

/-- The branch-node set construction succeeds on safe slots. -/
theorem buildSet_isOk :
    ∀ es : List PyObj, (∀ e ∈ es, slotSafe e = true) → (buildSet es).isOk = true := by
  intro es
  induction es with
  | nil => intro _; rfl
  | cons e rest ih =>
    intro hsafe
    have he := hsafe e (List.mem_cons_self e rest)
    have hrest : ∀ x ∈ rest, slotSafe x = true :=
      fun x hx => hsafe x (List.mem_cons_of_mem e hx)
    match e with
    | .int n => simp [slotSafe] at he
    | .bytes s =>
      by_cases h32 : s.length = 32
      · have := ih hrest
        simp only [buildSet, if_pos h32]
        match hbs : buildSet rest with
        | .error err => rw [hbs] at this; simp [Except.isOk, Except.toBool] at this
        | .ok cs => simp [Except.isOk, Except.toBool]
      · simpa [buildSet, if_neg h32] using ih hrest
    | .list l =>
      have hl : l.length ≠ 32 := by simpa [slotSafe] using he
      simpa [buildSet, if_neg hl] using ih hrest

/-- Unfolding of `_get_children` when the input decodes to a list. -/
theorem get_children_list_eq (enc : Bytes) (items : List PyObj)
    (h : rlpDecode enc = some (.list items)) :
    get_children enc =
      (if items.length = 17 then buildSet (items.take 16)
       else if items.length = 2 then
         (match items.get? 1 with
          | some (.int _) => Except.error ()
          | some (.bytes s) => if s.length = 32 then Except.ok [s] else Except.ok []
          | some (.list l) => if l.length = 32 then Except.error () else Except.ok []
          | none => Except.ok [])
       else Except.ok []) := by
  unfold get_children
  rw [h]

/-- C3 counterexample: the byte string `b'\x82ab'` is valid RLP (it
decodes to the two-byte string `b'ab'`), so the `DecodingError` handler
does not fire, the branch `len(decoded_node) == 2` is taken, and
`len(decoded_node[1])` is `len` of an integer — `_get_children` raises a
`TypeError` to its caller instead of returning a set. -/
theorem c3_counterexample : get_children [130, 97, 98] = .error () := by decide

/-- C3 (amended): `_get_children` returns an empty set on every input
that fails RLP decoding, and returns a (possibly empty) set without
raising on every input whose decoded object is of a safe shape — in
particular on every input decoding to a list of byte strings.  Inputs
decoding to a byte string of length 17 or 2, or to a 17-slot or 2-slot
list with a 32-element sublist in an examined position, raise a
`TypeError` instead. -/
theorem c3_totality_amended (enc : Bytes) :
    (rlpDecode enc = none → get_children enc = .ok []) ∧
    (∀ v, rlpDecode enc = some v → childSafeShape v = true →
      (get_children enc).isOk = true) := by
  constructor
  · intro h
    simp [get_children, h]
  · intro v hv hsafe
    match v with
    | .int n => simp [childSafeShape] at hsafe
    | .bytes s =>
      simp only [childSafeShape, Bool.and_eq_true, decide_eq_true_eq] at hsafe
      simp [get_children, hv, hsafe.1, hsafe.2, Except.isOk, Except.toBool]
    | .list items =>
      simp only [childSafeShape, Bool.and_eq_true] at hsafe
      obtain ⟨hs17, hs2⟩ := hsafe
      rw [get_children_list_eq enc items hv]
      by_cases h17 : items.length = 17
      · rw [if_pos h17] at hs17 ⊢
        exact buildSet_isOk _ (fun e he => by
          simpa using List.all_eq_true.mp hs17 e (by simpa using he))
      · rw [if_neg h17]
        by_cases h2 : items.length = 2
        · rw [if_pos h2] at hs2 ⊢
          match hget : items.get? 1 with
          | none => simp [Except.isOk, Except.toBool]
          | some (.int n) => rw [hget] at hs2; simp [slotSafe] at hs2
          | some (.bytes s) =>
            by_cases h32 : s.length = 32 <;>
              simp [h32, Except.isOk, Except.toBool]
          | some (.list l) =>
            rw [hget] at hs2
            have hl : l.length ≠ 32 := by simpa [slotSafe] using hs2
            simp [hl, Except.isOk, Except.toBool]
        · rw [if_neg h2]
          simp [Except.isOk, Except.toBool]

/-- Witness for C3 at the RLP encoding of the empty list. -/
theorem c3_totality_witness : (get_children [192]).isOk = true :=
  (c3_totality_amended [192]).2 (.list []) rfl (by decide)

/-! ## Claim C9 -/

/-- The retry loop raises after all its attempts fail. -/
theorem fulfillFrom_all_fail (outcomes : Nat → AttemptResult) :
    ∀ n i, (∀ j, i ≤ j → j < i + n → ∀ num, outcomes j ≠ .success num) →
      fulfillFrom outcomes n i = .error () := by
  intro n
  induction n with
  | zero => intro i _; rfl
  | succ n ih =>
    intro i hfail
    unfold fulfillFrom
    match ho : outcomes i with
    | .success num => exact absurd ho (hfail i le_rfl (by omega) num)
    | .noPeers => exact ih (i + 1) fun j h1 h2 num => hfail j (by omega) (by omega) num
    | .nonResponse => exact ih (i + 1) fun j h1 h2 num => hfail j (by omega) (by omega) num
    | .peerLost => exact ih (i + 1) fun j h1 h2 num => hfail j (by omega) (by omega) num
    | .noHeaders => exact ih (i + 1) fun j h1 h2 num => hfail j (by omega) (by omega) num
    | .atTip => exact ih (i + 1) fun j h1 h2 num => hfail j (by omega) (by omega) num
    | .shortage w => exact ih (i + 1) fun j h1 h2 num => hfail j (by omega) (by omega) num

/-- The retry loop inspects only the attempts within its budget. -/
theorem fulfillFrom_congr (o1 o2 : Nat → AttemptResult) :
    ∀ n i, (∀ j, i ≤ j → j < i + n → o2 j = o1 j) →
      fulfillFrom o2 n i = fulfillFrom o1 n i := by
  intro n
  induction n with
  | zero => intro i _; rfl
  | succ n ih =>
    intro i hagree
    unfold fulfillFrom
    rw [hagree i le_rfl (by omega)]
    match outcomes1 : o1 i with
    | .success num => rfl
    | .noPeers => exact ih (i + 1) fun j h1 h2 => hagree j (by omega) (by omega)
    | .nonResponse => exact ih (i + 1) fun j h1 h2 => hagree j (by omega) (by omega)
    | .peerLost => exact ih (i + 1) fun j h1 h2 => hagree j (by omega) (by omega)
    | .noHeaders => exact ih (i + 1) fun j h1 h2 => hagree j (by omega) (by omega)
    | .atTip => exact ih (i + 1) fun j h1 h2 => hagree j (by omega) (by omega)
    | .shortage w => exact ih (i + 1) fun j h1 h2 => hagree j (by omega) (by omega)

/-- C9: `fulfill_prerequisites` raises a timeout error when none of its
first 1000 attempts succeeds, no single attempt sleeps longer than
`MAXIMUM_RETRY_SLEEP` (30 s), and the outcome of the call depends only on
the first 1000 attempts — the ceiling on attempts. -/
theorem c9_retry_bounds (outcomes : Nat → AttemptResult)
    (hfail : ∀ i, i < 1000 → ∀ num, outcomes i ≠ .success num) :
    fulfill_prerequisites outcomes = .error () ∧
    (∀ r t, attemptSleep r = some t → t ≤ MAXIMUM_RETRY_SLEEP) ∧
    (∀ outcomes2 : Nat → AttemptResult,
      (∀ i, i < 1000 → outcomes2 i = outcomes i) →
      fulfill_prerequisites outcomes2 = fulfill_prerequisites outcomes) := by
  refine ⟨?_, ?_, ?_⟩
  · exact fulfillFrom_all_fail outcomes 1000 0 fun j _ hj num => hfail j (by omega) num
  · intro r t ht
    match r with
    | .noPeers =>
      rw [show t = 2 by simpa [attemptSleep] using ht.symm]
      norm_num [MAXIMUM_RETRY_SLEEP]
    | .nonResponse =>
      rw [show t = 0 by simpa [attemptSleep] using ht.symm]
      norm_num [MAXIMUM_RETRY_SLEEP]
    | .peerLost =>
      rw [show t = 0 by simpa [attemptSleep] using ht.symm]
      norm_num [MAXIMUM_RETRY_SLEEP]
    | .noHeaders =>
      rw [show t = 1 / 20 by simpa [attemptSleep] using ht.symm]
      norm_num [MAXIMUM_RETRY_SLEEP]
    | .atTip =>
      rw [show t = 10 by simpa [attemptSleep] using ht.symm]
      norm_num [MAXIMUM_RETRY_SLEEP]
    | .shortage w =>
      rw [show t = min w MAXIMUM_RETRY_SLEEP by simpa [attemptSleep] using ht.symm]
      exact min_le_right _ _
    | .success num => simp [attemptSleep] at ht
  · intro outcomes2 hagree
    exact fulfillFrom_congr outcomes outcomes2 1000 0 fun j _ hj => hagree j (by omega)

/-- Witness for C9: with no peers ever available, the call times out. -/
theorem c9_retry_witness : fulfill_prerequisites (fun _ => .noPeers) = .error () :=
  (c9_retry_bounds (fun _ => .noPeers)
    (fun _ _ _ h => AttemptResult.noConfusion h)).1

/-! ## Claim C10 -/

/-- C10: the checkpoint strategy's starting block number is the maximum
of the wrapped genesis strategy's number and `min_block_number`, the
genesis number is never below `GENESIS_BLOCK_NUMBER`, and after a
successful `fulfill_prerequisites` (which stores the checkpoint header's
number into `min_block_number`) the result is never below that header
number. -/
theorem c10_checkpoint_floor (outcomes : Nat → AttemptResult)
    (minBn head reorgDepth : Int)
    (_hs : fulfill_prerequisites outcomes = .ok minBn) :
    checkpoint_get_starting_block_number minBn
        (genesis_get_starting_block_number head reorgDepth) =
      max (genesis_get_starting_block_number head reorgDepth) minBn ∧
    GENESIS_BLOCK_NUMBER ≤ genesis_get_starting_block_number head reorgDepth ∧
    minBn ≤ checkpoint_get_starting_block_number minBn
        (genesis_get_starting_block_number head reorgDepth) := by
  refine ⟨?_, le_max_left _ _, ?_⟩
  · unfold checkpoint_get_starting_block_number
    by_cases h : genesis_get_starting_block_number head reorgDepth > minBn
    · rw [if_pos h, max_eq_left h.le]
    · rw [if_neg h, max_eq_right (by omega)]
  · unfold checkpoint_get_starting_block_number
    by_cases h : genesis_get_starting_block_number head reorgDepth > minBn
    · rw [if_pos h]; exact h.le
    · rw [if_neg h]

/-- Witness for C10: success on the first attempt with header number 5,
head 3, reorg depth 2. -/
theorem c10_checkpoint_witness :
    checkpoint_get_starting_block_number 5
        (genesis_get_starting_block_number 3 2) =
      max (genesis_get_starting_block_number 3 2) 5 ∧
    GENESIS_BLOCK_NUMBER ≤ genesis_get_starting_block_number 3 2 ∧
    (5 : Int) ≤ checkpoint_get_starting_block_number 5
        (genesis_get_starting_block_number 3 2) :=
  c10_checkpoint_floor (fun _ => .success 5) 5 3 2 rfl

/-! ## Claims C2 and C6 -/

/-- A successful association-list lookup locates a member. -/
theorem lookup_mem_assoc {k : Hash} {v : Bytes} :
    ∀ {l : List (Hash × Bytes)}, List.lookup k l = some v → (k, v) ∈ l := by
  intro l
  induction l with
  | nil => intro h; cases h
  | cons pr rest ih =>
    intro hl
    match pr with
    | (a, b) =>
      by_cases hk : k = a
      · subst hk
        simp [List.lookup] at hl
        simp [hl]
      · have hbeq : (k == a) = false := beq_eq_false_iff_ne.mpr hk
        rw [List.lookup, hbeq] at hl
        exact List.mem_cons_of_mem _ (ih hl)

/-- When every node the response dictionary can produce has extractable
children, the `_insert_results` loop completes: the flag is true, batch
entries and queued hashes are preserved, every requested hash found in
the response is written to the batch, and every requested hash absent
from the response is re-enqueued. -/
theorem insertLoop_complete (dict : Hash → Option Bytes)
    (hsafe : ∀ h enc, dict h = some enc → (get_children enc).isOk = true) :
    ∀ (req : List Hash) (s : BackfillState) (batch : List (Hash × Bytes)),
      (insertLoop dict req s batch).2.2 = true ∧
      (∀ x ∈ batch, x ∈ (insertLoop dict req s batch).2.1) ∧
      (∀ x ∈ s.node_hashes, x ∈ (insertLoop dict req s batch).1.node_hashes) ∧
      (∀ h ∈ req, ∀ enc, dict h = some enc →
        (h, enc) ∈ (insertLoop dict req s batch).2.1) ∧
      (∀ h ∈ req, dict h = none →
        h ∈ (insertLoop dict req s batch).1.node_hashes) := by
  intro req
  induction req with
  | nil =>
    intro s batch
    refine ⟨rfl, fun x hx => hx, fun x hx => hx, ?_, ?_⟩ <;> simp
  | cons h rest ih =>
    intro s batch
    match hd : dict h with
    | some enc =>
      have hok := hsafe h enc hd
      match hgc : get_children enc with
      | .error e =>
        rw [hgc] at hok
        simp [Except.isOk, Except.toBool] at hok
      | .ok children =>
        have heq : insertLoop dict (h :: rest) s batch =
            insertLoop dict rest
              { s with
                num_added := s.num_added + 1
                total_processed := s.total_processed + 1
                is_missing := s.is_missing.erase h
                node_hashes := s.node_hashes ++ children }
              (batch ++ [(h, enc)]) := by
          simp [insertLoop, hd, hgc]
        obtain ⟨iok, ibatch, igrow, ifound, imiss⟩ :=
          ih { s with
                num_added := s.num_added + 1
                total_processed := s.total_processed + 1
                is_missing := s.is_missing.erase h
                node_hashes := s.node_hashes ++ children }
             (batch ++ [(h, enc)])
        rw [heq]
        refine ⟨iok, ?_, ?_, ?_, ?_⟩
        · exact fun x hx => ibatch x (List.mem_append_left _ hx)
        · exact fun x hx => igrow x (List.mem_append_left _ hx)
        · intro h2 hmem enc2 hd2
          rcases List.mem_cons.mp hmem with heqh | hmem2
          · subst heqh
            rw [hd] at hd2
            cases hd2
            exact ibatch (h2, enc) (List.mem_append_right _ (List.mem_singleton.mpr rfl))
          · exact ifound h2 hmem2 enc2 hd2
        · intro h2 hmem hd2
          rcases List.mem_cons.mp hmem with heqh | hmem2
          · subst heqh
            rw [hd] at hd2
            cases hd2
          · exact imiss h2 hmem2 hd2
    | none =>
      have heq : insertLoop dict (h :: rest) s batch =
          insertLoop dict rest
            { s with
              num_missed := s.num_missed + 1
              node_hashes := s.node_hashes ++ [h] }
            batch := by
        simp [insertLoop, hd]
      obtain ⟨iok, ibatch, igrow, ifound, imiss⟩ :=
        ih { s with
              num_missed := s.num_missed + 1
              node_hashes := s.node_hashes ++ [h] }
           batch
      rw [heq]
      refine ⟨iok, ibatch, ?_, ?_, ?_⟩
      · exact fun x hx => igrow x (List.mem_append_left _ hx)
      · intro h2 hmem enc2 hd2
        rcases List.mem_cons.mp hmem with heqh | hmem2
        · subst heqh
          rw [hd] at hd2
          cases hd2
        · exact ifound h2 hmem2 enc2 hd2
      · intro h2 hmem hd2
        rcases List.mem_cons.mp hmem with heqh | hmem2
        · subst heqh
          exact igrow h2 (List.mem_append_right _ (List.mem_singleton.mpr rfl))
        · exact imiss h2 hmem2 hd2

/-- C2 counterexample: the peer returns, for the single requested hash,
a blob that is valid RLP for a two-byte string.  `_get_children` raises a
`TypeError` inside `_insert_results`, the atomic batch is discarded, and
the hash is neither written to the store nor re-enqueued — it is
dropped. -/
theorem c2_conservation_counterexample :
    (make_request 0 emptyBackfill 0 [[1]]
        (.success [([1], [130, 97, 98])])).db_writes = [] ∧
    [1] ∉ (make_request 0 emptyBackfill 0 [[1]]
        (.success [([1], [130, 97, 98])])).state.node_hashes := by
  decide

/-- C2 (amended): provided child extraction succeeds on every returned
blob (in particular whenever each returned blob fails RLP decoding or
decodes to a list of byte strings), every hash split into `on_deck` is,
once the spawned `_make_request` task finishes, either written to the
store or back on the hash stack, under every classified outcome. -/
theorem c2_hash_conservation (gap : Nat) (s : BackfillState) (p : Peer)
    (request_hashes : List Hash) (o : RequestOutcome)
    (hsafe : ∀ nodes, o = .success nodes →
      ∀ pr ∈ nodes, (get_children pr.2).isOk = true) :
    ∀ h ∈ request_hashes,
      h ∈ (make_request gap s p request_hashes o).db_writes.map Prod.fst ∨
      h ∈ (make_request gap s p request_hashes o).state.node_hashes := by
  intro h hmem
  match o with
  | .timeout =>
    right
    simp [make_request]
    right
    exact hmem
  | .peerGone =>
    right
    simp [make_request]
    right
    exact hmem
  | .otherError =>
    right
    simp [make_request]
    right
    exact hmem
  | .success nodes =>
    have hdict : ∀ h2 enc, List.lookup h2 nodes.reverse = some enc →
        (get_children enc).isOk = true := by
      intro h2 enc hl
      exact hsafe nodes rfl (h2, enc) (List.mem_reverse.mp (lookup_mem_assoc hl))
    obtain ⟨iok, _, _, ifound, imiss⟩ :=
      insertLoop_complete _ hdict request_hashes
        { s with requests_log := s.requests_log ++ [p] } []
    match hd : List.lookup h nodes.reverse with
    | some enc =>
      left
      show h ∈ (List.map Prod.fst _)
      simp only [make_request, iok, if_pos]
      exact List.mem_map.mpr ⟨(h, enc), ifound h hmem enc hd, rfl⟩
    | none =>
      right
      show h ∈ (make_request gap s p request_hashes (.success nodes)).state.node_hashes
      simp only [make_request]
      exact imiss h hmem hd

/-- Witness for C2: a returned node that decodes to a two-slot list with
an empty second slot is safe, and the requested hash ends up written. -/
theorem c2_hash_conservation_witness :
    [3] ∈ (make_request 1 emptyBackfill 0 [[3]]
        (.success [([3], [194, 128, 128])])).db_writes.map Prod.fst ∨
    [3] ∈ (make_request 1 emptyBackfill 0 [[3]]
        (.success [([3], [194, 128, 128])])).state.node_hashes :=
  c2_hash_conservation 1 emptyBackfill 0 [[3]] (.success [([3], [194, 128, 128])])
    (fun nodes hn => by cases hn; decide) [3] (by decide)

/-- The RLP encoding of a 17-byte string: bytecode-like data that decodes
but is not a list, sending `_get_children` into the branch-node path
where `len` of an integer raises. -/
def c6Poison : Bytes := 145 :: List.replicate 17 7

/-- C6 counterexample: on a successful response containing `c6Poison`
for the requested hash, the claim says the returned node is persisted,
but the insert loop raises and the atomic batch is discarded — nothing is
written and the task ends in an exception. -/
theorem c6_success_persistence_counterexample :
    List.lookup [2] [([2], c6Poison)].reverse = some c6Poison ∧
    (make_request 1 emptyBackfill 0 [[2]]
        (.success [([2], c6Poison)])).db_writes = [] ∧
    (make_request 1 emptyBackfill 0 [[2]]
        (.success [([2], c6Poison)])).raised = true := by
  decide

/-- C6 (amended): the outcome taxonomy of `_make_request`.  On timeout
all hashes are re-enqueued, the peer is re-inserted only after
`2 × GAP_BETWEEN_TESTS`, the added/missed counters are untouched and
nothing is written; on peer-gone/cancelled all hashes are re-enqueued and
no re-insertion is scheduled; on any other error all hashes are
re-enqueued with a `2 × GAP_BETWEEN_TESTS` delay; on success the peer is
re-inserted after `GAP_BETWEEN_TESTS` and — provided child extraction
succeeds on every returned blob — requested hashes present in the
response are persisted and absent ones are re-enqueued. -/
theorem c6_outcome_taxonomy (gap : Nat) (s : BackfillState) (p : Peer)
    (hashes : List Hash) (nodes : List (Hash × Bytes))
    (hsafe : ∀ pr ∈ nodes, (get_children pr.2).isOk = true) :
    ((make_request gap s p hashes .timeout).state.node_hashes =
        s.node_hashes ++ hashes ∧
      (make_request gap s p hashes .timeout).reinsertDelay = some (gap * 2) ∧
      (make_request gap s p hashes .timeout).state.num_added = s.num_added ∧
      (make_request gap s p hashes .timeout).state.num_missed = s.num_missed ∧
      (make_request gap s p hashes .timeout).db_writes = []) ∧
    ((make_request gap s p hashes .peerGone).state.node_hashes =
        s.node_hashes ++ hashes ∧
      (make_request gap s p hashes .peerGone).reinsertDelay = none ∧
      (make_request gap s p hashes .peerGone).db_writes = []) ∧
    ((make_request gap s p hashes .otherError).state.node_hashes =
        s.node_hashes ++ hashes ∧
      (make_request gap s p hashes .otherError).reinsertDelay = some (gap * 2) ∧
      (make_request gap s p hashes .otherError).db_writes = []) ∧
    ((make_request gap s p hashes (.success nodes)).reinsertDelay = some gap ∧
      (∀ h ∈ hashes, ∀ enc, List.lookup h nodes.reverse = some enc →
        (h, enc) ∈ (make_request gap s p hashes (.success nodes)).db_writes) ∧
      (∀ h ∈ hashes, List.lookup h nodes.reverse = none →
        h ∈ (make_request gap s p hashes (.success nodes)).state.node_hashes)) := by
  have hdict : ∀ h2 enc, List.lookup h2 nodes.reverse = some enc →
      (get_children enc).isOk = true := by
    intro h2 enc hl
    exact hsafe (h2, enc) (List.mem_reverse.mp (lookup_mem_assoc hl))
  obtain ⟨iok, _, _, ifound, imiss⟩ :=
    insertLoop_complete _ hdict hashes
      { s with requests_log := s.requests_log ++ [p] } []
  refine ⟨⟨rfl, rfl, rfl, rfl, rfl⟩, ⟨rfl, rfl, rfl⟩, ⟨rfl, rfl, rfl⟩,
    rfl, ?_, ?_⟩
  · intro h hmem enc hd
    show (h, enc) ∈ (make_request gap s p hashes (.success nodes)).db_writes
    simp only [make_request, iok, if_pos]
    exact ifound h hmem enc hd
  · intro h hmem hd
    show h ∈ (make_request gap s p hashes (.success nodes)).state.node_hashes
    simp only [make_request]
    exact imiss h hmem hd

/-- Witness for C6 at a concrete timed-out request. -/
theorem c6_outcome_taxonomy_witness :
    (make_request 1 emptyBackfill 0 [[4]] .timeout).reinsertDelay = some (1 * 2) :=
  ((c6_outcome_taxonomy 1 emptyBackfill 0 [[4]] [] (by simp)).1).2.1

/-! ## Claim C7 -/

/-- C7: whenever an iteration of the backfill loop issues a background
request, the receiving peer is the popped peer and is not the peer
occupying the queen slot at the moment the request is spawned; in
particular a peer that just won the queen election ends its round with
`becameQueen` and is never handed a request. -/
theorem c7_queen_excluded (key : Peer → Int) (s : BackfillState) (p q : Peer)
    (op req : Bool) (s' : BackfillState) (onDeck : List Hash)
    (h : backfillRound key s p op req = (s', .requested q onDeck)) :
    q = p ∧ s'.queen ≠ some q := by
  unfold backfillRound at h
  by_cases hop : op = false
  · rw [if_pos hop] at h
    simp at h
  · rw [if_neg hop] at h
    by_cases hq : (update_queen key { s with waiting := s.waiting.erase p } p).queen
        = some p
    · rw [if_pos hq] at h
      simp at h
    · rw [if_neg hq] at h
      by_cases hreq : req = true
      · rw [if_pos hreq] at h
        simp at h
      · rw [if_neg hreq] at h
        by_cases hemp : ((update_queen key { s with waiting := s.waiting.erase p }
            p).node_hashes.drop
              ((update_queen key { s with waiting := s.waiting.erase p }
                p).node_hashes.length - REQUEST_SIZE)).isEmpty = true
        · rw [if_pos hemp] at h
          simp at h
        · rw [if_neg hemp] at h
          injection h with h1 h2
          injection h2 with hqp hod
          subst hqp
          subst h1
          exact ⟨rfl, hq⟩

/-- A state with one queued hash, a slow queen 5 and a waiting drone 7. -/
def c7State : BackfillState :=
  { emptyBackfill with
    node_hashes := [[9]]
    waiting := insert 7 emptyBackfill.waiting
    queen := some 5 }

/-- Witness for C7: peer 7 is popped, loses the election against queen 5
and receives the request, and the queen slot does not hold 7. -/
theorem c7_queen_excluded_witness :
    7 = 7 ∧
    (backfillRound (fun _ => 0) c7State 7 true false).1.queen ≠ some 7 :=
  c7_queen_excluded (fun _ => 0) c7State 7 7 true false
    (backfillRound (fun _ => 0) c7State 7 true false).1 [[9]] (by decide)

/-! ## Claim C4 -/

/-- The `_insert_results` loop never touches the queen slot, the waiting
heap or the out-of-rotation set. -/
theorem insertLoop_pool (dict : Hash → Option Bytes) :
    ∀ (req : List Hash) (s : BackfillState) (batch : List (Hash × Bytes)),
      (insertLoop dict req s batch).1.queen = s.queen ∧
      (insertLoop dict req s batch).1.waiting = s.waiting ∧
      (insertLoop dict req s batch).1.out = s.out := by
  intro req
  induction req with
  | nil => intro s batch; exact ⟨rfl, rfl, rfl⟩
  | cons h rest ih =>
    intro s batch
    unfold insertLoop
    match hd : dict h with
    | some enc =>
      dsimp only
      match hgc : get_children enc with
      | .error e => exact ⟨rfl, rfl, rfl⟩
      | .ok children => exact ih _ _
    | none => exact ih _ _

/-- The `_make_request` task never touches the queen slot, the waiting heap or the
out-of-rotation set. -/
theorem make_request_pool (gap : Nat) (s : BackfillState) (p : Peer)
    (hashes : List Hash) (o : RequestOutcome) :
    (make_request gap s p hashes o).state.queen = s.queen ∧
    (make_request gap s p hashes o).state.waiting = s.waiting ∧
    (make_request gap s p hashes o).state.out = s.out := by
  match o with
  | .timeout => exact ⟨rfl, rfl, rfl⟩
  | .peerGone => exact ⟨rfl, rfl, rfl⟩
  | .otherError => exact ⟨rfl, rfl, rfl⟩
  | .success nodes =>
    exact insertLoop_pool _ hashes { s with requests_log := s.requests_log ++ [p] } []

/-- Operation `_update_queen` preserves the pool invariant when called on a peer
that is outside both the heap and the out-of-rotation set (as every
popped peer is), and it leaves `out` alone and does not re-admit the peer
into the heap. -/
theorem update_queen_inv (key : Peer → Int) (s : BackfillState) (p : Peer)
    (hinv : PoolInv s) (hpw : p ∉ s.waiting) (hpo : p ∉ s.out) :
    PoolInv (update_queen key s p) ∧
    (update_queen key s p).out = s.out ∧
    p ∉ (update_queen key s p).waiting := by
  obtain ⟨hq, hd⟩ := hinv
  unfold update_queen
  match hqs : s.queen with
  | none =>
    dsimp only
    refine ⟨⟨?_, hd⟩, rfl, hpw⟩
    intro q hq2
    cases hq2
    exact ⟨hpw, hpo⟩
  | some q0 =>
    dsimp only
    by_cases hpq : p = q0
    · rw [if_pos hpq]
      exact ⟨⟨hq, hd⟩, rfl, hpw⟩
    · rw [if_neg hpq]
      by_cases hk : key p < key q0
      · rw [if_pos hk]
        obtain ⟨hq0w, hq0o⟩ := hq q0 hqs
        refine ⟨⟨?_, ?_⟩, rfl, ?_⟩
        · intro q hq2
          cases hq2
          refine ⟨fun hmem => ?_, hpo⟩
          rcases Finset.mem_insert.mp hmem with he | hmem2
          · exact hpq he
          · exact hpw hmem2
        · intro x hx
          rcases Finset.mem_insert.mp hx with he | hx2
          · subst he; exact hq0o
          · exact hd x hx2
        · intro hmem
          rcases Finset.mem_insert.mp hmem with he | hmem2
          · exact hpq he
          · exact hpw hmem2
      · rw [if_neg hk]
        exact ⟨⟨hq, hd⟩, rfl, hpw⟩

/-- One iteration of the backfill loop, acting on a popped waiting peer,
preserves the pool invariant. -/
theorem backfillRound_inv (key : Peer → Int) (s : BackfillState) (p : Peer)
    (op req : Bool) (hinv : PoolInv s) (hp : p ∈ s.waiting) :
    PoolInv (backfillRound key s p op req).1 := by
  obtain ⟨hq, hd⟩ := hinv
  have hpo : p ∉ s.out := hd p hp
  have hinv1 : PoolInv { s with waiting := s.waiting.erase p } := by
    refine ⟨fun q hq2 => ?_, fun x hx => hd x (Finset.mem_of_mem_erase hx)⟩
    obtain ⟨hw, ho⟩ := hq q hq2
    exact ⟨fun hmem => hw (Finset.mem_of_mem_erase hmem), ho⟩
  have hpw1 : p ∉ ({ s with waiting := s.waiting.erase p } : BackfillState).waiting :=
    Finset.not_mem_erase p s.waiting
  unfold backfillRound
  by_cases hop : op = false
  · rw [if_pos hop]
    refine ⟨fun q hq2 => ?_, hinv1.2⟩
    by_cases hqp : s.queen = some p
    · rw [if_pos hqp] at hq2
      cases hq2
    · rw [if_neg hqp] at hq2
      exact hinv1.1 q hq2
  · rw [if_neg hop]
    obtain ⟨hui, huo, hupw⟩ :=
      update_queen_inv key { s with waiting := s.waiting.erase p } p hinv1 hpw1 hpo
    by_cases hq2 : (update_queen key { s with waiting := s.waiting.erase p } p).queen
        = some p
    · rw [if_pos hq2]
      exact hui
    · rw [if_neg hq2]
      by_cases hreq : req = true
      · rw [if_pos hreq]
        refine ⟨fun q hq3 => ?_, fun x hx => ?_⟩
        · obtain ⟨hw, ho⟩ := hui.1 q hq3
          refine ⟨hw, fun hmem => ?_⟩
          rcases Finset.mem_insert.mp hmem with he | hmem2
          · subst he; exact hq2 hq3
          · exact ho hmem2
        · intro hmem
          rcases Finset.mem_insert.mp hmem with he | hmem2
          · subst he; exact hupw hx
          · exact hui.2 x hx hmem2
      · rw [if_neg hreq]
        by_cases hemp : ((update_queen key { s with waiting := s.waiting.erase p }
            p).node_hashes.drop
              ((update_queen key { s with waiting := s.waiting.erase p }
                p).node_hashes.length - REQUEST_SIZE)).isEmpty = true
        · rw [if_pos hemp]
          refine ⟨fun q hq3 => ?_, fun x hx => ?_⟩
          · obtain ⟨hw, ho⟩ := hui.1 q hq3
            refine ⟨fun hmem => ?_, ho⟩
            rcases Finset.mem_insert.mp hmem with he | hmem2
            · subst he; exact hq2 hq3
            · exact hw hmem2
          · rcases Finset.mem_insert.mp hx with he | hx2
            · subst he; rw [huo]; exact hpo
            · exact hui.2 x hx2
        · rw [if_neg hemp]
          refine ⟨fun q hq3 => ?_, fun x hx => ?_⟩
          · obtain ⟨hw, ho⟩ := hui.1 q hq3
            refine ⟨hw, fun hmem => ?_⟩
            rcases Finset.mem_insert.mp hmem with he | hmem2
            · subst he; exact hq2 hq3
            · exact ho hmem2
          · intro hmem
            rcases Finset.mem_insert.mp hmem with he | hmem2
            · subst he; exact hupw hx
            · exact hui.2 x hx hmem2

/-- Every event-loop transition preserves the pool invariant. -/
theorem step_preserves_inv (key : Peer → Int) (s s' : BackfillState)
    (hstep : Step key s s') (hinv : PoolInv s) : PoolInv s' := by
  obtain ⟨hq, hd⟩ := hinv
  cases hstep with
  | roundStep p op req a hp h =>
    have := backfillRound_inv key s p op req ⟨hq, hd⟩ hp
    rwa [h] at this
  | finishRequest gap p hashes o hp h =>
    obtain ⟨mq, mw, mo⟩ := make_request_pool gap s p hashes o
    subst h
    refine ⟨fun q hq2 => ?_, fun x hx => ?_⟩
    · have hq3 : s.queen = some q := by rw [← mq]; exact hq2
      obtain ⟨hw, ho⟩ := hq q hq3
      refine ⟨?_, ?_⟩
      · show q ∉ (make_request gap s p hashes o).state.waiting
        rw [mw]; exact hw
      · show q ∉ (if (make_request gap s p hashes o).reinsertDelay.isSome
            then s.out else s.out.erase p)
        split
        · exact ho
        · exact fun hmem => ho (Finset.mem_of_mem_erase hmem)
    · have hx2 : x ∈ s.waiting := by
        have : x ∈ (make_request gap s p hashes o).state.waiting := hx
        rwa [mw] at this
      have ho := hd x hx2
      show x ∉ (if (make_request gap s p hashes o).reinsertDelay.isSome
          then s.out else s.out.erase p)
      split
      · exact ho
      · exact fun hmem => ho (Finset.mem_of_mem_erase hmem)
  | fireReinsert p hp h =>
    subst h
    refine ⟨fun q hq2 => ?_, fun x hx => ?_⟩
    · obtain ⟨hw, ho⟩ := hq q hq2
      refine ⟨fun hmem => ?_, fun hmem => ho (Finset.mem_of_mem_erase hmem)⟩
      rcases Finset.mem_insert.mp hmem with he | hmem2
      · subst he; exact ho hp
      · exact hw hmem2
    · rcases Finset.mem_insert.mp hx with he | hx2
      · subst he; exact Finset.not_mem_erase x s.out
      · exact fun hmem => hd x hx2 (Finset.mem_of_mem_erase hmem)
  | penalizeStep p h =>
    subst h
    unfold penalize_queen
    by_cases hqp : s.queen = some p
    · rw [if_pos hqp]
      refine ⟨fun q hq2 => ?_, fun x hx => ?_⟩
      · cases hq2
      · intro hmem
        rcases Finset.mem_insert.mp hmem with he | hmem2
        · exact (hq p hqp).1 (he ▸ hx)
        · exact hd x hx hmem2
    · rw [if_neg hqp]
      exact ⟨hq, hd⟩
  | registerStep p hfresh h =>
    subst h
    refine ⟨fun q hq2 => ?_, fun x hx => ?_⟩
    · obtain ⟨hw, ho⟩ := hq q hq2
      refine ⟨fun hmem => ?_, ho⟩
      rcases Finset.mem_insert.mp hmem with he | hmem2
      · subst he; exact hfresh.2.2 hq2
      · exact hw hmem2
    · rcases Finset.mem_insert.mp hx with he | hx2
      · subst he; exact hfresh.2.1
      · exact hd x hx2
  | deregisterStep p h =>
    subst h
    refine ⟨fun q hq2 => ?_, hd⟩
    by_cases hqp : s.queen = some p
    · rw [if_pos hqp] at hq2
      cases hq2
    · rw [if_neg hqp] at hq2
      exact hq q hq2
  | getQueenStep p hp h =>
    subst h
    have hpo : p ∉ s.out := hd p hp
    have hinv1 : PoolInv { s with waiting := s.waiting.erase p } := by
      refine ⟨fun q hq2 => ?_, fun x hx => hd x (Finset.mem_of_mem_erase hx)⟩
      obtain ⟨hw, ho⟩ := hq q hq2
      exact ⟨fun hmem => hw (Finset.mem_of_mem_erase hmem), ho⟩
    exact (update_queen_inv key _ p hinv1 (Finset.not_mem_erase p s.waiting) hpo).1
  | setRootStep root h =>
    subst h
    unfold set_root_hash
    split
    · exact ⟨hq, hd⟩
    · exact ⟨hq, hd⟩
  | walkIterStep db h =>
    have hpool : s'.queen = s.queen ∧ s'.waiting = s.waiting ∧ s'.out = s.out := by
      unfold walkStep at h
      by_cases hful : has_full_request_worth_of_queued_hashes s = true
      · rw [if_pos hful] at h
        rcases h with h | h
        · cases h
        · injection h with h1
          subst h1
          exact ⟨rfl, rfl, rfl⟩
      · rw [if_neg hful] at h
        match hscan : scanLoop db s.node_hashes.reverse s.is_missing 0 with
        | (m1, none) =>
          rw [hscan] at h
          dsimp only at h
          rcases h with h | h
          · cases h
          · injection h with h1
            subst h1
            exact ⟨rfl, rfl, rfl⟩
        | (m1, some (ridx, enc)) =>
          rw [hscan] at h
          dsimp only at h
          match hgc : get_children enc with
          | .error e =>
            rw [hgc] at h
            rcases h with h | h
            · cases h
            · injection h with h1
              subst h1
              exact ⟨rfl, rfl, rfl⟩
          | .ok children =>
            rw [hgc] at h
            rcases h with h | h
            · injection h with h1
              subst h1
              exact ⟨rfl, rfl, rfl⟩
            · cases h
    obtain ⟨pq, pw, po⟩ := hpool
    refine ⟨fun q hq2 => ?_, fun x hx => ?_⟩
    · rw [pq] at hq2
      rw [pw, po]
      exact hq q hq2
    · rw [pw] at hx
      rw [po]
      exact hd x hx

/-- Every reachable engine state satisfies the pool invariant. -/
theorem reachable_inv (key : Peer → Int) (s : BackfillState)
    (h : Reachable key s) : PoolInv s := by
  induction h with
  | init =>
    constructor
    · intro q hq
      simp [emptyBackfill] at hq
    · intro p hp
      simp [emptyBackfill] at hp
  | step hr hs ih => exact step_preserves_inv _ _ _ hs ih

/-- C4: queen exclusivity — in every reachable engine state the peer in
the queen slot, when set, is absent from the waiting heap; all mutating
operations (`_update_queen`, `penalize_queen` and its delayed
re-insertion, register/deregister, the cool-down re-insertion callbacks)
preserve this. -/
theorem c4_queen_exclusivity (key : Peer → Int) (s : BackfillState)
    (h : Reachable key s) (q : Peer) (hq : s.queen = some q) : q ∉ s.waiting :=
  ((reachable_inv key s h).1 q hq).1

/-- The state after registering peer 1 with a fresh engine. -/
def c4Mid : BackfillState :=
  { emptyBackfill with waiting := insert 1 emptyBackfill.waiting }

/-- Witness for C4: after registering peer 1 and electing it queen via
`get_queen_peer`, the queen is not in the waiting heap. -/
theorem c4_queen_exclusivity_witness :
    (1 : Peer) ∉ (update_queen (fun _ => 0)
      { c4Mid with waiting := c4Mid.waiting.erase 1 } 1).waiting :=
  c4_queen_exclusivity (fun _ => 0) _
    (Reachable.step
      (Reachable.step Reachable.init
        (Step.registerStep _ _ 1 (by decide) rfl))
      (Step.getQueenStep _ _ 1 (by decide) rfl))
    1 rfl

/-! ## Claim C5 -/

/-- Weight of one queued hash under a rank function: base 17 strictly
dominates the at most 16 children a node can contribute. -/
def hashWeight (rank : Hash → Nat) (h : Hash) : Nat := 17 ^ rank h

/-- Total weight of the hash stack. -/
def stackMeasure (rank : Hash → Nat) (l : List Hash) : Nat :=
  (l.map (hashWeight rank)).sum

/-- A scan that stops with a hit found it inside the scanned list, at the
reported index, and it was present in the store. -/
theorem scanLoop_hit (db : Db) :
    ∀ (l : List Hash) (missing : Finset Hash) (ridx : Nat) (m1 : Finset Hash)
      (r : Nat) (enc : Bytes),
      scanLoop db l missing ridx = (m1, some (r, enc)) →
      ∃ i h, i < l.length ∧ r = ridx + i ∧ l[i]? = some h ∧
        List.lookup h db = some enc := by
  intro l
  induction l with
  | nil =>
    intro missing ridx m1 r enc h
    simp [scanLoop] at h
  | cons hd tl ih =>
    intro missing ridx m1 r enc h
    rw [scanLoop] at h
    by_cases hm : hd ∈ missing
    · rw [if_pos hm] at h
      obtain ⟨i, h0, hi, hr, hg, hl⟩ := ih _ _ _ _ _ h
      exact ⟨i + 1, h0, by simpa using hi, by omega, by simpa using hg, hl⟩
    · rw [if_neg hm] at h
      match hlk : List.lookup hd db with
      | none =>
        rw [hlk] at h
        obtain ⟨i, h0, hi, hr, hg, hl⟩ := ih _ _ _ _ _ h
        exact ⟨i + 1, h0, by simpa using hi, by omega, by simpa using hg, hl⟩
      | some enc2 =>
        rw [hlk] at h
        injection h with h1 h2
        injection h2 with h3
        obtain ⟨hr, henc⟩ := Prod.mk.injEq _ _ _ _ ▸ h3
        exact ⟨0, hd, by simp, by omega, by simp, by rw [hlk, henc]⟩

/-- Removing the element at a valid index removes exactly its weight. -/
theorem stackMeasure_eraseIdx (rank : Hash → Nat) :
    ∀ (l : List Hash) (i : Nat) (h : Hash), l[i]? = some h →
      stackMeasure rank (l.eraseIdx i) + hashWeight rank h =
        stackMeasure rank l := by
  intro l
  induction l with
  | nil => intro i h hg; cases hg
  | cons hd tl ih =>
    intro i h hg
    match i with
    | 0 =>
      have : hd = h := by simpa using hg
      subst this
      simp [stackMeasure, List.eraseIdx]
      omega
    | i + 1 =>
      have hg2 : tl[i]? = some h := by simpa using hg
      have := ih i h hg2
      simp only [List.eraseIdx, stackMeasure, List.map_cons, List.sum_cons]
      simp only [stackMeasure] at this
      omega

/-- The branch-node set construction returns at most one entry per
slot. -/
theorem buildSet_length_le :
    ∀ (es : List PyObj) (cs : List Bytes), buildSet es = .ok cs →
      cs.length ≤ es.length := by
  intro es
  induction es with
  | nil =>
    intro cs h
    injection h with h1
    subst h1
    simp
  | cons e rest ih =>
    intro cs h
    match e with
    | .int n => cases h
    | .bytes s =>
      by_cases h32 : s.length = 32
      · rw [buildSet, if_pos h32] at h
        match hbs : buildSet rest with
        | .error e2 => rw [hbs] at h; cases h
        | .ok cs0 =>
          rw [hbs] at h
          injection h with h1
          subst h1
          have := ih cs0 hbs
          split
          · simpa using Nat.le_succ_of_le this
          · simpa using Nat.succ_le_succ this
      · rw [buildSet, if_neg h32] at h
        simpa using Nat.le_succ_of_le (ih cs h)
    | .list l =>
      by_cases h32 : l.length = 32
      · rw [buildSet, if_pos h32] at h
        cases h
      · rw [buildSet, if_neg h32] at h
        simpa using Nat.le_succ_of_le (ih cs h)

/-- Extraction by `_get_children` yields at most 16 children. -/
theorem childrenList_length_le (enc : Bytes) : (childrenList enc).length ≤ 16 := by
  unfold childrenList
  match hgc : get_children enc with
  | .error e => simp
  | .ok cs =>
    show cs.length ≤ 16
    unfold get_children at hgc
    match hdec : rlpDecode enc with
    | none =>
      rw [hdec] at hgc
      injection hgc with h1
      subst h1
      simp
    | some (.int n) => rw [hdec] at hgc; cases hgc
    | some (.bytes s) =>
      rw [hdec] at hgc
      dsimp only at hgc
      split at hgc
      · cases hgc
      · split at hgc
        · cases hgc
        · injection hgc with h1
          subst h1
          simp
    | some (.list items) =>
      rw [hdec] at hgc
      dsimp only at hgc
      by_cases h17 : items.length = 17
      · rw [if_pos h17] at hgc
        have := buildSet_length_le _ _ hgc
        calc cs.length ≤ (items.take 16).length := this
          _ ≤ 16 := by simp
      · rw [if_neg h17] at hgc
        by_cases h2 : items.length = 2
        · rw [if_pos h2] at hgc
          match hget : items.get? 1 with
          | none =>
            rw [hget] at hgc
            dsimp only at hgc
            injection hgc with h1; subst h1; simp
          | some (.int n) =>
            rw [hget] at hgc
            dsimp only at hgc
            cases hgc
          | some (.bytes s) =>
            rw [hget] at hgc
            dsimp only at hgc
            split at hgc <;> (injection hgc with h1; subst h1; simp)
          | some (.list l) =>
            rw [hget] at hgc
            dsimp only at hgc
            split at hgc
            · cases hgc
            · injection hgc with h1; subst h1; simp
        · rw [if_neg h2] at hgc
          injection hgc with h1
          subst h1
          simp

/-- At most 16 children of strictly smaller rank weigh strictly less
than their parent. -/
theorem children_sum_lt (rank : Hash → Nat) (cs : List Bytes) (r : Nat)
    (hlen : cs.length ≤ 16) (hrk : ∀ c ∈ cs, rank c < r) :
    stackMeasure rank cs < 17 ^ r := by
  match cs with
  | [] =>
    simp only [stackMeasure, List.map_nil, List.sum_nil]
    exact Nat.pos_pow_of_pos r (by norm_num)
  | c :: rest =>
    have hr1 : 1 ≤ r := by have := hrk c (List.mem_cons_self c rest); omega
    have hb : ∀ x ∈ (c :: rest).map (hashWeight rank), x ≤ 17 ^ (r - 1) := by
      intro x hx
      obtain ⟨y, hy, rfl⟩ := List.mem_map.mp hx
      exact Nat.pow_le_pow_right (by norm_num) (by have := hrk y hy; omega)
    have hcard : ((c :: rest).map (hashWeight rank)).length ≤ 16 := by
      simpa using hlen
    have hpos : 0 < 17 ^ (r - 1) := Nat.pos_pow_of_pos _ (by norm_num)
    have hsum : stackMeasure rank (c :: rest) ≤ 16 * 17 ^ (r - 1) := by
      calc stackMeasure rank (c :: rest)
          ≤ ((c :: rest).map (hashWeight rank)).length * 17 ^ (r - 1) := by
            simpa [smul_eq_mul] using
              List.sum_le_card_nsmul ((c :: rest).map (hashWeight rank)) _ hb
        _ ≤ 16 * 17 ^ (r - 1) := Nat.mul_le_mul_right _ hcard
    have hlt : 16 * 17 ^ (r - 1) < 17 ^ r := by
      have : 17 ^ r = 17 * 17 ^ (r - 1) := by
        conv_lhs => rw [show r = (r - 1) + 1 by omega]
        rw [pow_succ]
        ring
      omega
    omega

/-- A continuing iteration of the `_walk` loop strictly decreases the
stack measure, given that references in the store decrease rank. -/
theorem walkStep_decrease (db : Db) (rank : Hash → Nat)
    (hrank : ∀ h enc c, List.lookup h db = some enc → c ∈ childrenList enc →
      rank c < rank h)
    (s s1 : BackfillState) (h : walkStep db s = .again s1) :
    stackMeasure rank s1.node_hashes < stackMeasure rank s.node_hashes := by
  unfold walkStep at h
  by_cases hful : has_full_request_worth_of_queued_hashes s = true
  · rw [if_pos hful] at h
    cases h
  · rw [if_neg hful] at h
    match hscan : scanLoop db s.node_hashes.reverse s.is_missing 0 with
    | (m1, none) =>
      rw [hscan] at h
      dsimp only at h
      cases h
    | (m1, some (ridx, enc)) =>
      rw [hscan] at h
      dsimp only at h
      match hgc : get_children enc with
      | .error e => rw [hgc] at h; cases h
      | .ok children =>
        rw [hgc] at h
        injection h with h1
        subst h1
        obtain ⟨i, h0, hi, hr, hget, hlk⟩ := scanLoop_hit db _ _ _ _ _ _ hscan
        have hi2 : i < s.node_hashes.length := by simpa using hi
        have hgetOrig :
            s.node_hashes[s.node_hashes.length - ridx - 1]? = some h0 := by
          have hrel : ridx + (s.node_hashes.length - ridx - 1) + 1 =
              s.node_hashes.length := by omega
          rw [show s.node_hashes.length - ridx - 1 =
              s.node_hashes.length - 1 - ridx by omega] at hrel ⊢
          rw [← List.getElem?_reverse' ridx _ (by simpa using hrel)]
          rw [show ridx = i by omega]
          exact hget
        have herase := stackMeasure_eraseIdx rank _ _ _ hgetOrig
        have hch : ∀ c ∈ children, rank c < rank h0 := by
          intro c hc
          refine hrank h0 enc c hlk ?_
          unfold childrenList
          rw [hgc]
          exact hc
        have hlenc : children.length ≤ 16 := by
          have := childrenList_length_le enc
          unfold childrenList at this
          rw [hgc] at this
          exact this
        have hsum := children_sum_lt rank children (rank h0) hlenc hch
        have happ : stackMeasure rank
            ((s.node_hashes.eraseIdx (s.node_hashes.length - ridx - 1)) ++ children)
            = stackMeasure rank
                (s.node_hashes.eraseIdx (s.node_hashes.length - ridx - 1)) +
              stackMeasure rank children := by
          simp [stackMeasure]
        show stackMeasure rank
            ((s.node_hashes.eraseIdx (s.node_hashes.length - ridx - 1)) ++ children)
            < stackMeasure rank s.node_hashes
        rw [happ]
        have hw : hashWeight rank h0 = 17 ^ rank h0 := rfl
        omega

/-- With a rank decreasing along store references, the `_walk` loop
finishes within one more iteration than the initial stack measure. -/
theorem walkRun_total (db : Db) (rank : Hash → Nat)
    (hrank : ∀ h enc c, List.lookup h db = some enc → c ∈ childrenList enc →
      rank c < rank h) :
    ∀ (n : Nat) (s : BackfillState), stackMeasure rank s.node_hashes < n →
      (walkRun db n s).isSome = true := by
  intro n
  induction n with
  | zero => intro s h; exact absurd h (Nat.not_lt_zero _)
  | succ n ih =>
    intro s hm
    unfold walkRun
    match hws : walkStep db s with
    | .finished s1 => simp
    | .again s1 =>
      have hdec := walkStep_decrease db rank hrank s s1 hws
      exact ih s1 (by omega)

/-- C5 counterexample state: one queued hash which the store maps to an
extension node whose child is the hash itself. -/
def cycHash : Hash := List.replicate 32 1

/-- The cyclic store. -/
def cycDb : Db := [(cycHash, [226, 128, 160] ++ cycHash)]

/-- The engine state holding only the cyclic hash. -/
def cycState : BackfillState := { emptyBackfill with node_hashes := [cycHash] }

/-- C5 counterexample: on a finite store containing a self-referencing
node, `_walk` re-expands the same hash forever — one loop iteration
reproduces the starting state exactly, so no finite number of iterations
returns. -/
theorem c5_nontermination_counterexample : ¬ walkTerminates cycDb cycState := by
  have hstep : walkStep cycDb cycState = .again cycState := by decide
  intro hterm
  obtain ⟨n, hn⟩ := hterm
  have hnone : ∀ m, walkRun cycDb m cycState = none := by
    intro m
    induction m with
    | zero => rfl
    | succ m ih =>
      unfold walkRun
      rw [hstep]
      exact ih
  rw [hnone n] at hn
  cases hn

/-- C5 (amended): `_walk` returns after finitely many loop iterations for
every finite hash stack and every finite store whose parent-to-child
references admit a strictly decreasing rank — equivalently, whose stored
nodes contain no reference cycle, as is guaranteed for any store keyed by
a collision-free content hash. -/
theorem c5_walk_termination (db : Db) (s : BackfillState) (rank : Hash → Nat)
    (hrank : ∀ h enc c, List.lookup h db = some enc → c ∈ childrenList enc →
      rank c < rank h) :
    walkTerminates db s :=
  ⟨stackMeasure rank s.node_hashes + 1,
    walkRun_total db rank hrank _ s (Nat.lt_succ_self _)⟩

/-- Witness for C5 on the empty store. -/
theorem c5_walk_termination_witness :
    walkTerminates [] { emptyBackfill with node_hashes := [[1]] } :=
  c5_walk_termination [] { emptyBackfill with node_hashes := [[1]] } (fun _ => 0)
    (fun _ _ _ hl => nomatch hl)

end Trinity
